import Mathlib

/-!
Shallow embedding of the lint/format engine of `markdown_editor.py`.

Text is modelled as `List Char`.  The Python regular expressions used by
the source are embedded with their exact backtracking semantics:

* `^---\s*\n.*?\n---\s*\n` (with `re.DOTALL`) drives `has_frontmatter`,
  `extract_frontmatter`, the invalid-frontmatter highlight, the
  `re.sub` that strips the frontmatter before body linting, and the
  `re.split` in `format_markdown`; it is embedded once as
  `matchEnvelope` (greedy `\s*` in the opening delimiter, lazy `.*?`,
  greedy `\s*` in the closing delimiter).
* `^(\s*[-*+])([^\s])` (with `re.MULTILINE`) is `scanList`.
* `(#[^#\s])` is `scanHeadings`.
* `(\[\]\(\))` is `scanLinks`.

The whitespace class `\s` is modelled by its ASCII part.  The external
collaborators — `yaml.safe_load` and `mdformat.text` — are passed as
function parameters (`parse`, `canon`); a raised exception is modelled
by `none`.  The Tk text-widget coordinates used when the source applies
its highlight tags (`line.col` indices resolved against the widget
content, clamping an over-long column to the end of its line) are
modelled by `offsetOfLineCol`.
-/

/-- ASCII part of the Python regex class `\s` (also the set stripped by
`str.strip()`): space, tab, newline, carriage return, vertical tab and
form feed. -/
def isWS (c : Char) : Bool :=
  decide (c = ' ' ∨ c = '\t' ∨ c = '\n' ∨ c = '\r' ∨ c = '\x0b' ∨ c = '\x0c')

/-- Candidate end positions for the opening delimiter match `---\s*\n`:
one position past each newline inside the whitespace run that starts at
index `pos`, listed in increasing order.  The greedy `\s*` makes the
regex engine try these candidates from the largest to the smallest. -/
def openerEndsAux : List Char → Nat → List Nat
  | c :: rest, pos =>
    if c = '\n' then (pos + 1) :: openerEndsAux rest (pos + 1)
    else if isWS c then openerEndsAux rest (pos + 1)
    else []
  | [], _ => []

/-- End position chosen by the greedy `\s*\n` at the end of the closing
delimiter: one past the last newline of the whitespace run starting at
index `pos` (`none` when the run contains no newline). -/
def lastNlEnd : List Char → Nat → Option Nat → Option Nat
  | c :: rest, pos, acc =>
    if c = '\n' then lastNlEnd rest (pos + 1) (some (pos + 1))
    else if isWS c then lastNlEnd rest (pos + 1) acc
    else acc
  | [], _, acc => acc

/-- Match attempt of the closing delimiter `\n---\s*\n` at the head of
the suffix `l` (absolute position `pos`): on success, the end of the
whole envelope match. -/
def closerHeadEnd (l : List Char) (pos : Nat) : Option Nat :=
  match l with
  | '\n' :: '-' :: '-' :: '-' :: tail => lastNlEnd tail (pos + 4) none
  | _ => none

/-- Lazy search (`.*?` extends one character at a time) for the closing
delimiter `\n---\s*\n`: the first position `p ≥ pos` where it matches,
returning `(p, e)` with `e` the end of the whole match.  `l` is the
suffix of the document starting at index `pos`. -/
def findCloserAux : List Char → Nat → Option (Nat × Nat)
  | [], _ => none
  | c :: rest, pos =>
    match closerHeadEnd (c :: rest) pos with
    | some e => some (pos, e)
    | none => findCloserAux rest (pos + 1)

/-- First non-`none` value of `f` along the list. -/
def firstSome {α : Type} : List Nat → (Nat → Option α) → Option α
  | [], _ => none
  | x :: xs, f =>
    match f x with
    | some y => some y
    | none => firstSome xs f

/-- Leftmost match of `^---\s*\n(.*?)\n---\s*\n` with `re.DOTALL`,
anchored at offset 0.  Returns `(o, p, e)` where `[o, p)` is the span
of the group `(.*?)` (the raw metadata content) and `e` is the end of
the whole match (the body offset).  The opening `\s*` is greedy (the
largest feasible opener end wins), `.*?` is lazy (the earliest closing
delimiter wins), and the closing `\s*` is greedy. -/
def matchEnvelope (s : List Char) : Option (Nat × Nat × Nat) :=
  match s with
  | '-' :: '-' :: '-' :: tail =>
    firstSome (openerEndsAux tail 3).reverse fun o =>
      match findCloserAux (s.drop o) o with
      | some (p, e) => some (o, p, e)
      | none => none
  | _ => none

/-- Slice `s[a..b)`. -/
def sliceCh (s : List Char) (a b : Nat) : List Char := (s.take b).drop a

/-- Result of `yaml.safe_load`: some structured value, not necessarily
a key-value mapping. -/
inductive YamlValue where
  | null
  | boolVal (b : Bool)
  | str (s : List Char)
  | num (n : Int)
  | seq (items : List YamlValue)
  | mapping (pairs : List (List Char × YamlValue))

/-- `has_frontmatter` of the source: the anchored envelope regex finds
a match. -/
def has_frontmatter (s : List Char) : Bool := (matchEnvelope s).isSome

/-- Length of the envelope match (`len(match.group(0))`), i.e. the
offset where the body starts; `0` when there is no frontmatter. -/
def bodyOffsetOf (s : List Char) : Nat :=
  match matchEnvelope s with
  | some (_, _, e) => e
  | none => 0

/-- Document body: the text with the frontmatter match removed by
`re.sub(pattern, '', content, count=1)`; the whole text when there is
no frontmatter. -/
def bodyOf (s : List Char) : List Char := s.drop (bodyOffsetOf s)

/-- Raw frontmatter block `match.group(0)`, both delimiter lines and
the trailing newline included. -/
def rawFrontmatterOf (s : List Char) : List Char := s.take (bodyOffsetOf s)

/-- Content of the group `(.*?)` of the envelope match — the text that
`extract_frontmatter` hands to `yaml.safe_load`. -/
def fmContentOf (s : List Char) : List Char :=
  match matchEnvelope s with
  | some (o, p, _) => sliceCh s o p
  | none => []

/-- `extract_frontmatter` of the source: on a match, feed the group to
the YAML parser; `(parsed, True)` when the parser does not raise, and
`(None, False)` on a parse error or when there is no match. -/
def extract_frontmatter (parse : List Char → Option YamlValue) (s : List Char) :
    Option YamlValue × Bool :=
  match matchEnvelope s with
  | some (o, p, _) =>
    (match parse (sliceCh s o p) with
     | some v => (some v, true)
     | none => (none, false))
  | none => (none, false)

/-- Non-overlapping matches of `(#[^#\s])` over the suffix `l`
(absolute start position `pos`), as `(start, end)` offset pairs. -/
def scanHeadingsAux : List Char → Nat → List (Nat × Nat)
  | '#' :: c :: rest, pos =>
    if c = '#' ∨ isWS c then scanHeadingsAux (c :: rest) (pos + 1)
    else (pos, pos + 2) :: scanHeadingsAux rest (pos + 2)
  | _ :: rest, pos => scanHeadingsAux rest (pos + 1)
  | [], _ => []

/-- All matches of the heading-spacing pattern `(#[^#\s])`. -/
def scanHeadings (s : List Char) : List (Nat × Nat) := scanHeadingsAux s 0

/-- Non-overlapping matches of the empty-link pattern `(\[\]\(\))`. -/
def scanLinksAux : List Char → Nat → List (Nat × Nat)
  | '[' :: ']' :: '(' :: ')' :: rest, pos =>
    (pos, pos + 4) :: scanLinksAux rest (pos + 4)
  | _ :: rest, pos => scanLinksAux rest (pos + 1)
  | [], _ => []

/-- All matches of the empty-link pattern `(\[\]\(\))`. -/
def scanLinks (s : List Char) : List (Nat × Nat) := scanLinksAux s 0

/-- Length of the whitespace run at the head of `l`. -/
def wsRunLen : List Char → Nat
  | c :: rest => if isWS c then wsRunLen rest + 1 else 0
  | [] => 0

/-- Match attempt of `(\s*[-*+])([^\s])` at a line start: since the
marker characters are not whitespace, the greedy `\s*` must consume the
whole whitespace run; returns the match length on success. -/
def tryList (l : List Char) : Option Nat :=
  match l.drop (wsRunLen l) with
  | c :: d :: _ =>
    if (c = '-' ∨ c = '*' ∨ c = '+') ∧ ¬ isWS d then some (wsRunLen l + 2) else none
  | _ => none

/-- Left-to-right non-overlapping scan of `^(\s*[-*+])([^\s])` with
`re.MULTILINE`: a match may start only at a line start; after a match
the scan resumes at the match end (never a line start, because the
character before it is not a newline). -/
def scanListAux : Nat → List Char → Nat → Bool → List (Nat × Nat)
  | 0, _, _, _ => []
  | _ + 1, [], _, _ => []
  | fuel + 1, c :: rest, pos, atStart =>
    match (if atStart then tryList (c :: rest) else none) with
    | some k => (pos, pos + k) :: scanListAux fuel ((c :: rest).drop k) (pos + k) false
    | none => scanListAux fuel rest (pos + 1) (decide (c = '\n'))

/-- All matches of the list-marker pattern `^(\s*[-*+])([^\s])`
(`re.MULTILINE`), as `(match.start(1), match.end(2))` pairs. -/
def scanList (s : List Char) : List (Nat × Nat) := scanListAux s.length s 0 true

/-- Diagnostic kinds of `lint_markdown`, in the order the source
checks them. -/
inductive DiagKind where
  | invalidFrontmatter
  | missingSpaceList
  | missingSpaceHeading
  | emptyLink
  deriving DecidableEq, Repr

/-- One reported issue together with the character range the source
highlights for it. -/
structure Diag where
  kind : DiagKind
  rstart : Nat
  rstop : Nat
  deriving DecidableEq, Repr

/-- Body checks of `lint_markdown`: guarded by `if content.strip():`,
then the list-marker, heading-marker and empty-link scans in source
order.  Ranges are offsets into the body. -/
def bodyScan (b : List Char) : List Diag :=
  if b.any (fun c => !(isWS c)) then
    (scanList b).map (fun r => ⟨.missingSpaceList, r.1, r.2⟩)
      ++ (scanHeadings b).map (fun r => ⟨.missingSpaceHeading, r.1, r.2⟩)
      ++ (scanLinks b).map (fun r => ⟨.emptyLink, r.1, r.2⟩)
  else []

/-- Frontmatter part of `lint_markdown`: when frontmatter is present
but `extract_frontmatter` reports it invalid, one diagnostic tagged
from `1.0` to `1.0+len(match.group(0))c`, i.e. absolute range
`[0, bodyOffset)`. -/
def fmDiags (parse : List Char → Option YamlValue) (s : List Char) : List Diag :=
  if has_frontmatter s then
    if (extract_frontmatter parse s).2 then []
    else [⟨.invalidFrontmatter, 0, bodyOffsetOf s⟩]
  else []

/-- `lint_markdown` of the source: the frontmatter check, then the body
checks over the frontmatter-stripped content. -/
def lint_markdown (parse : List Char → Option YamlValue) (s : List Char) : List Diag :=
  fmDiags parse s ++ bodyScan (bodyOf s)

/-- Line number (1-based) the source computes for a body offset:
`content_before.count('\n') + 1`. -/
def lineOf (content : List Char) (off : Nat) : Nat :=
  (content.take off).count '\n' + 1

/-- Column (0-based) the source computes for a body offset:
`len(content_before.split('\n')[-1])`. -/
def colOf (content : List Char) (off : Nat) : Nat :=
  ((content.take off).reverse.takeWhile (fun c => c != '\n')).length

/-- Length of the current line (up to the next newline) of `l`. -/
def curLineLen (l : List Char) : Nat := (l.takeWhile (fun c => c != '\n')).length

/-- Resolution of a Tk `line.col` index against the widget text,
clamping an over-long column to the end of its line and an over-long
line to the end of the text. -/
def offsetOfLineColAux : List Char → Nat → Nat → Nat → Nat
  | l, 0, _, base => base + l.length
  | l, 1, col, base => base + min col (curLineLen l)
  | l, n + 2, col, base =>
    if curLineLen l < l.length then
      offsetOfLineColAux (l.drop (curLineLen l + 1)) (n + 1) col (base + curLineLen l + 1)
    else base + l.length

/-- Absolute offset of the Tk index `line.col` in `t`. -/
def offsetOfLineCol (t : List Char) (line col : Nat) : Nat :=
  offsetOfLineColAux t line col 0

/-- Range a diagnostic actually covers in the editor buffer: the source
converts body offsets to `line.col` pairs using the stripped body, then
applies the tag to the widget that holds the full document.  The
invalid-frontmatter tag is applied directly with absolute offsets. -/
def tagResolve (full body : List Char) (d : Diag) : Diag :=
  if d.kind = .invalidFrontmatter then d
  else
    ⟨d.kind,
      offsetOfLineCol full (lineOf body d.rstart) (colOf body d.rstart),
      offsetOfLineCol full (lineOf body d.rstop) (colOf body d.rstop)⟩

/-- `lint_markdown` with each diagnostic's range replaced by the range
its highlight tag covers in the editor buffer. -/
def lintTagged (parse : List Char → Option YamlValue) (s : List Char) : List Diag :=
  (lint_markdown parse s).map (tagResolve s (bodyOf s))

/-- `re.split(pattern, content, maxsplit=1)` for the anchored envelope
pattern: `['', body]` when the pattern matches (necessarily at offset
0), `[content]` otherwise. -/
def re_split_env (s : List Char) : List (List Char) :=
  match matchEnvelope s with
  | some (_, _, e) => [[], s.drop e]
  | none => [s]

/-- Formatted text computed inside the `try:` of `format_markdown`
(`none` when the canonicalizer `mdformat.text` raises). -/
def format_attempt (canon : List Char → Option (List Char)) (s : List Char) :
    Option (List Char) :=
  if has_frontmatter s then
    (if (re_split_env s).length > 1 then
      (canon ((re_split_env s).getD 1 [])).map (fun fb => rawFrontmatterOf s ++ fb)
     else canon s)
  else canon s

/-- Outcome of `format_markdown`: the replacement text on success; the
original text untouched (and the error dialog, modelled by
`ok = false`) when the canonicalizer raises. -/
structure FormatResult where
  text : List Char
  ok : Bool
  deriving DecidableEq, Repr

/-- `format_markdown` of the source. -/
def format_markdown (canon : List Char → Option (List Char)) (s : List Char) :
    FormatResult :=
  match format_attempt canon s with
  | some out => ⟨out, true⟩
  | none => ⟨s, false⟩

/-- Decomposition asserted by the frontmatter-detection rule: `---`,
optional whitespace and a newline, a content region, a newline, `---`,
optional whitespace and a final newline, then the body. -/
def EnvelopeShape (s : List Char) : Prop :=
  ∃ w1 c w2 rest,
    (∀ x ∈ w1, isWS x = true) ∧ (∀ x ∈ w2, isWS x = true) ∧
      s = '-' :: '-' :: '-' ::
        (w1 ++ '\n' :: (c ++ '\n' :: '-' :: '-' :: '-' :: (w2 ++ '\n' :: rest)))

/-- YAML parser stand-in that fails on every input. -/
def yamlNone : List Char → Option YamlValue := fun _ => none

/-- YAML parser stand-in that accepts every input as a bare scalar. -/
def yamlScalar : List Char → Option YamlValue := fun c => some (.str c)

/-- Scenario D input `"---\nfoo: [unterminated\n---\n# Heading"`. -/
def scenD : List Char := "---\nfoo: [unterminated\n---\n# Heading".toList

/-- Metadata content of scenario D. -/
def scenDContent : List Char := "foo: [unterminated".toList

/-- Scenario E input `"---\ntitle: Hi\n---\n#Bad"`. -/
def scenE : List Char := "---\ntitle: Hi\n---\n#Bad".toList

/-- Document whose frontmatter content is the bare scalar `hello`. -/
def scenScalar : List Char := "---\nhello\n---\nx".toList

/-- Constant canonicalizer whose (idempotent) output begins with a
frontmatter envelope. -/
def canonConst : List Char → Option (List Char) :=
  fun _ => some ("---\na\n---\nx".toList)

/-- Constant canonicalizer with a frontmatter-free output. -/
def canonA : List Char → Option (List Char) := fun _ => some ['a']

example : matchEnvelope scenE = some (4, 13, 18) := by decide
example : matchEnvelope scenD = some (4, 22, 27) := by decide
example : has_frontmatter ("---\n---\n".toList) = false := by decide
example : has_frontmatter ("---\n\n---\n".toList) = true := by decide
example : fmContentOf scenD = scenDContent := by decide
example : lint_markdown yamlNone ("#Title".toList) = [⟨.missingSpaceHeading, 0, 2⟩] := by
  decide
example : lint_markdown yamlNone ("-item".toList) = [⟨.missingSpaceList, 0, 2⟩] := by
  decide
example : lint_markdown yamlNone ("[]()".toList) = [⟨.emptyLink, 0, 4⟩] := by decide
example : lint_markdown yamlNone ("  -item".toList) = [⟨.missingSpaceList, 0, 4⟩] := by
  decide
example : lintTagged yamlScalar scenE = [⟨.missingSpaceHeading, 0, 2⟩] := by decide
example : lint_markdown yamlNone scenD = [⟨.invalidFrontmatter, 0, 27⟩] := by decide
example :
    format_markdown (fun l => some l) scenE = ⟨scenE, true⟩ := by decide

/-! Lemmas about the envelope regex embedding. -/

theorem firstSome_eq_some {α : Type} {l : List Nat} {f : Nat → Option α} {y : α}
    (h : firstSome l f = some y) : ∃ x ∈ l, f x = some y := by
  induction l with
  | nil => simp [firstSome] at h
  | cons a as ih =>
    rw [firstSome] at h
    cases hfa : f a with
    | some z =>
      rw [hfa] at h
      exact ⟨a, List.mem_cons_self a as, by rw [hfa]; exact h⟩
    | none =>
      rw [hfa] at h
      obtain ⟨x, hx, hfx⟩ := ih h
      exact ⟨x, List.mem_cons_of_mem a hx, hfx⟩

theorem firstSome_isSome {α : Type} {l : List Nat} {f : Nat → Option α} {x : Nat}
    (hx : x ∈ l) (hfx : (f x).isSome) : (firstSome l f).isSome := by
  induction l with
  | nil => simp at hx
  | cons a as ih =>
    rw [firstSome]
    cases hfa : f a with
    | some z => simp
    | none =>
      rcases List.mem_cons.mp hx with rfl | hmem
      · rw [hfa] at hfx; simp at hfx
      · simpa [hfa] using ih hmem

theorem openerEndsAux_sound :
    ∀ (l : List Char) (pos o : Nat), o ∈ openerEndsAux l pos →
      ∃ w rest, l = w ++ '\n' :: rest ∧ (∀ x ∈ w, isWS x = true) ∧
        o = pos + w.length + 1 := by
  intro l
  induction l with
  | nil => intro pos o h; simp [openerEndsAux] at h
  | cons c cs ih =>
    intro pos o h
    rw [openerEndsAux] at h
    by_cases hc : c = '\n'
    · rw [if_pos hc] at h
      rcases List.mem_cons.mp h with rfl | hmem
      · exact ⟨[], cs, by simp [hc], by simp, by simp⟩
      · obtain ⟨w, rest, hcs, hws, ho⟩ := ih (pos + 1) o hmem
        refine ⟨c :: w, rest, by simp [hcs], ?_, ?_⟩
        · intro x hx
          rcases List.mem_cons.mp hx with rfl | hxw
          · simp [isWS, hc]
          · exact hws x hxw
        · simp only [List.length_cons]; omega
    · rw [if_neg hc] at h
      by_cases hw : isWS c
      · rw [if_pos hw] at h
        obtain ⟨w, rest, hcs, hws, ho⟩ := ih (pos + 1) o h
        refine ⟨c :: w, rest, by simp [hcs], ?_, ?_⟩
        · intro x hx
          rcases List.mem_cons.mp hx with rfl | hxw
          · exact hw
          · exact hws x hxw
        · simp only [List.length_cons]; omega
      · rw [if_neg hw] at h; simp at h

theorem openerEndsAux_complete :
    ∀ (w : List Char) (pos : Nat) (rest : List Char),
      (∀ x ∈ w, isWS x = true) →
      pos + w.length + 1 ∈ openerEndsAux (w ++ '\n' :: rest) pos := by
  intro w
  induction w with
  | nil =>
    intro pos rest _
    simp [openerEndsAux]
  | cons c w' ih =>
    intro pos rest hws
    rw [List.cons_append, openerEndsAux]
    have harith : pos + (c :: w').length + 1 = (pos + 1) + w'.length + 1 := by
      simp only [List.length_cons]; omega
    have hmem := ih (pos + 1) rest (fun x hx => hws x (List.mem_cons_of_mem c hx))
    by_cases hc : c = '\n'
    · rw [if_pos hc, harith]
      exact List.mem_cons_of_mem _ hmem
    · rw [if_neg hc, if_pos (hws c (List.mem_cons_self c w')), harith]
      exact hmem

theorem lastNlEnd_sound :
    ∀ (l : List Char) (pos : Nat) (acc : Option Nat) (r : Nat),
      lastNlEnd l pos acc = some r →
      (∃ w rest, l = w ++ '\n' :: rest ∧ (∀ x ∈ w, isWS x = true) ∧
        r = pos + w.length + 1) ∨ acc = some r := by
  intro l
  induction l with
  | nil => intro pos acc r h; rw [lastNlEnd] at h; right; exact h
  | cons c cs ih =>
    intro pos acc r h
    rw [lastNlEnd] at h
    by_cases hc : c = '\n'
    · rw [if_pos hc] at h
      rcases ih (pos + 1) (some (pos + 1)) r h with ⟨w, rest, hcs, hws, hr⟩ | hacc
      · refine Or.inl ⟨c :: w, rest, by simp [hcs], ?_, ?_⟩
        · intro x hx
          rcases List.mem_cons.mp hx with rfl | hxw
          · simp [isWS, hc]
          · exact hws x hxw
        · simp only [List.length_cons]; omega
      · injection hacc with h'
        exact Or.inl ⟨[], cs, by simp [hc], by simp,
          by simp only [List.length_nil]; omega⟩
    · rw [if_neg hc] at h
      by_cases hw : isWS c
      · rw [if_pos hw] at h
        rcases ih (pos + 1) acc r h with ⟨w, rest, hcs, hws, hr⟩ | hacc
        · refine Or.inl ⟨c :: w, rest, by simp [hcs], ?_, ?_⟩
          · intro x hx
            rcases List.mem_cons.mp hx with rfl | hxw
            · exact hw
            · exact hws x hxw
          · simp only [List.length_cons]; omega
        · exact Or.inr hacc
      · rw [if_neg hw] at h; exact Or.inr h

theorem lastNlEnd_acc_isSome :
    ∀ (l : List Char) (pos : Nat) (acc : Option Nat), acc.isSome →
      (lastNlEnd l pos acc).isSome := by
  intro l
  induction l with
  | nil => intro pos acc h; rw [lastNlEnd]; exact h
  | cons c cs ih =>
    intro pos acc h
    rw [lastNlEnd]
    by_cases hc : c = '\n'
    · rw [if_pos hc]; exact ih _ _ rfl
    · rw [if_neg hc]
      by_cases hw : isWS c
      · rw [if_pos hw]; exact ih _ _ h
      · rw [if_neg hw]; exact h

theorem lastNlEnd_complete :
    ∀ (w : List Char) (pos : Nat) (rest : List Char) (acc : Option Nat),
      (∀ x ∈ w, isWS x = true) →
      (lastNlEnd (w ++ '\n' :: rest) pos acc).isSome := by
  intro w
  induction w with
  | nil =>
    intro pos rest acc _
    rw [List.nil_append, lastNlEnd, if_pos rfl]
    exact lastNlEnd_acc_isSome _ _ _ rfl
  | cons c w' ih =>
    intro pos rest acc hws
    rw [List.cons_append, lastNlEnd]
    by_cases hc : c = '\n'
    · rw [if_pos hc]
      exact ih _ _ _ (fun x hx => hws x (List.mem_cons_of_mem c hx))
    · rw [if_neg hc, if_pos (hws c (List.mem_cons_self c w'))]
      exact ih _ _ _ (fun x hx => hws x (List.mem_cons_of_mem c hx))

theorem closerHeadEnd_sound {l : List Char} {pos e : Nat}
    (h : closerHeadEnd l pos = some e) :
    ∃ w rest, l = '\n' :: '-' :: '-' :: '-' :: (w ++ '\n' :: rest) ∧
      (∀ x ∈ w, isWS x = true) ∧ e = pos + 4 + w.length + 1 := by
  unfold closerHeadEnd at h
  split at h
  · rename_i tail
    rcases lastNlEnd_sound tail (pos + 4) none e h with ⟨w, rest, htail, hws, hr⟩ | habs
    · exact ⟨w, rest, by rw [htail], hws, hr⟩
    · cases habs
  · cases h

theorem closerHeadEnd_complete (w rest : List Char) (pos : Nat)
    (hws : ∀ x ∈ w, isWS x = true) :
    (closerHeadEnd ('\n' :: '-' :: '-' :: '-' :: (w ++ '\n' :: rest)) pos).isSome := by
  simpa [closerHeadEnd] using lastNlEnd_complete w (pos + 4) rest none hws

theorem findCloserAux_sound :
    ∀ (l : List Char) (pos p e : Nat), findCloserAux l pos = some (p, e) →
      ∃ pre w rest,
        l = pre ++ '\n' :: '-' :: '-' :: '-' :: (w ++ '\n' :: rest) ∧
        (∀ x ∈ w, isWS x = true) ∧ p = pos + pre.length ∧
        e = p + 4 + w.length + 1 := by
  intro l
  induction l with
  | nil => intro pos p e h; rw [findCloserAux] at h; cases h
  | cons c cs ih =>
    intro pos p e h
    rw [findCloserAux] at h
    cases hch : closerHeadEnd (c :: cs) pos with
    | some e' =>
      rw [hch] at h
      obtain ⟨w, rest, hshape, hws, he'⟩ := closerHeadEnd_sound hch
      have hp : pos = p := by injection h with h'; exact congrArg Prod.fst h'
      have he : e' = e := by injection h with h'; exact congrArg Prod.snd h'
      refine ⟨[], w, rest, by simpa using hshape, hws, by simp [hp], by omega⟩
    | none =>
      rw [hch] at h
      obtain ⟨pre, w, rest, hcs, hws, hp, he⟩ := ih (pos + 1) p e h
      refine ⟨c :: pre, w, rest, by simp [hcs], hws, ?_, he⟩
      simp only [List.length_cons]; omega

theorem findCloserAux_complete :
    ∀ (pre : List Char) (pos : Nat) (w rest : List Char),
      (∀ x ∈ w, isWS x = true) →
      (findCloserAux (pre ++ '\n' :: '-' :: '-' :: '-' :: (w ++ '\n' :: rest)) pos).isSome := by
  intro pre
  induction pre with
  | nil =>
    intro pos w rest hws
    rw [List.nil_append, findCloserAux]
    have h := closerHeadEnd_complete w rest pos hws
    cases hch : closerHeadEnd ('\n' :: '-' :: '-' :: '-' :: (w ++ '\n' :: rest)) pos with
    | some e => rfl
    | none => rw [hch] at h; simp at h
  | cons c pre' ih =>
    intro pos w rest hws
    rw [List.cons_append, findCloserAux]
    cases hch : closerHeadEnd (c :: (pre' ++ '\n' :: '-' :: '-' :: '-' :: (w ++ '\n' :: rest))) pos with
    | some e => rfl
    | none => exact ih (pos + 1) w rest hws

theorem drop_ws_nl (w rest : List Char) :
    (w ++ '\n' :: rest).drop (w.length + 1) = rest := by
  have h : w ++ '\n' :: rest = (w ++ ['\n']) ++ rest := by simp
  have hl : (w ++ ['\n']).length = w.length + 1 := by simp
  rw [h, ← hl, List.drop_left]

theorem drop_cons3 (a b c : Char) (t : List Char) (k : Nat) :
    (a :: b :: c :: t).drop (k + 3) = t.drop k := by
  simp [List.drop_succ_cons]

theorem matchEnvelope_sound {s : List Char} {o p e : Nat}
    (h : matchEnvelope s = some (o, p, e)) :
    ∃ w1 c w2 rest,
      s = '-' :: '-' :: '-' ::
        (w1 ++ '\n' :: (c ++ '\n' :: '-' :: '-' :: '-' :: (w2 ++ '\n' :: rest))) ∧
      (∀ x ∈ w1, isWS x = true) ∧ (∀ x ∈ w2, isWS x = true) ∧
      o = w1.length + 4 ∧ p = o + c.length ∧ e = p + w2.length + 5 := by
  unfold matchEnvelope at h
  split at h
  · rename_i tail
    obtain ⟨x, hx, hfx⟩ := firstSome_eq_some h
    obtain ⟨w1, rest1, htail, hw1, hxval⟩ :=
      openerEndsAux_sound tail 3 x (List.mem_reverse.mp hx)
    have hdrop : ('-' :: '-' :: '-' :: tail).drop x = rest1 := by
      rw [htail, hxval]
      have h3 : 3 + w1.length + 1 = (w1.length + 1) + 3 := by omega
      rw [h3, drop_cons3, drop_ws_nl]
    cases hfc : findCloserAux (('-' :: '-' :: '-' :: tail).drop x) x with
    | none => rw [hfc] at hfx; cases hfx
    | some pe =>
      obtain ⟨p', e'⟩ := pe
      rw [hfc] at hfx
      have ho : o = x := by injection hfx with h'; exact (congrArg Prod.fst h').symm
      have hpe : p = p' ∧ e = e' := by
        injection hfx with h'
        have := congrArg Prod.snd h'
        exact ⟨(congrArg Prod.fst this).symm, (congrArg Prod.snd this).symm⟩
      rw [hdrop] at hfc
      obtain ⟨pre, w2, rest2, hrest1, hw2, hp', he'⟩ := findCloserAux_sound rest1 x p' e' hfc
      obtain ⟨hp1, he1⟩ := hpe
      refine ⟨w1, pre, w2, rest2, ?_, hw1, hw2, by omega, by omega, by omega⟩
      rw [htail, hrest1]
  · cases h

theorem matchEnvelope_complete {s : List Char} (h : EnvelopeShape s) :
    has_frontmatter s = true := by
  obtain ⟨w1, c, w2, rest, hw1, hw2, hs⟩ := h
  subst hs
  rw [has_frontmatter]
  unfold matchEnvelope
  have hx : 3 + w1.length + 1 ∈
      (openerEndsAux (w1 ++ '\n' :: (c ++ '\n' :: '-' :: '-' :: '-' :: (w2 ++ '\n' :: rest))) 3).reverse :=
    List.mem_reverse.mpr (openerEndsAux_complete w1 3 _ hw1)
  apply firstSome_isSome hx
  have hdrop : ('-' :: '-' :: '-' ::
      (w1 ++ '\n' :: (c ++ '\n' :: '-' :: '-' :: '-' :: (w2 ++ '\n' :: rest)))).drop (3 + w1.length + 1) =
      c ++ '\n' :: '-' :: '-' :: '-' :: (w2 ++ '\n' :: rest) := by
    have h3 : 3 + w1.length + 1 = (w1.length + 1) + 3 := by omega
    rw [h3, drop_cons3, drop_ws_nl]
  rw [hdrop]
  have hfc := findCloserAux_complete c (3 + w1.length + 1) w2 rest hw2
  cases hfcv : findCloserAux (c ++ '\n' :: '-' :: '-' :: '-' :: (w2 ++ '\n' :: rest))
      (3 + w1.length + 1) with
  | none => rw [hfcv] at hfc; simp at hfc
  | some pe => obtain ⟨p, e⟩ := pe; rfl

theorem matchEnvelope_bounds {s : List Char} {o p e : Nat}
    (h : matchEnvelope s = some (o, p, e)) :
    4 ≤ o ∧ o ≤ p ∧ p + 5 ≤ e ∧ e ≤ s.length := by
  obtain ⟨w1, c, w2, rest, hs, _, _, ho, hp, he⟩ := matchEnvelope_sound h
  subst hs
  simp only [List.length_cons, List.length_append]
  omega

theorem has_frontmatter_iff_shape (s : List Char) :
    has_frontmatter s = true ↔ EnvelopeShape s := by
  constructor
  · intro h
    rw [has_frontmatter] at h
    cases hm : matchEnvelope s with
    | none => rw [hm] at h; cases h
    | some v =>
      obtain ⟨o, p, e⟩ := v
      obtain ⟨w1, c, w2, rest, hs, hw1, hw2, _⟩ := matchEnvelope_sound hm
      exact ⟨w1, c, w2, rest, hw1, hw2, hs⟩
  · exact matchEnvelope_complete

theorem bodyOf_of_no_fm {s : List Char} (h : has_frontmatter s = false) :
    bodyOf s = s := by
  rw [has_frontmatter] at h
  cases hm : matchEnvelope s with
  | some v => rw [hm] at h; simp at h
  | none => simp [bodyOf, bodyOffsetOf, hm]

/-! Lemmas about the three body scanners. -/

theorem scanHeadingsAux_mem (l : List Char) (pos : Nat) (a b : Nat) :
    (a, b) ∈ scanHeadingsAux l pos ↔
      ∃ i c2 r2, l.drop i = '#' :: c2 :: r2 ∧ c2 ≠ '#' ∧ isWS c2 = false ∧
        a = pos + i ∧ b = pos + i + 2 := by
  induction l, pos using scanHeadingsAux.induct with
  | case1 c rest pos hc ih =>
    rw [scanHeadingsAux.eq_1, if_pos hc, ih]
    constructor
    · rintro ⟨i, c2, r2, hdrop, hne, hws, ha, hb⟩
      exact ⟨i + 1, c2, r2, by simpa using hdrop, hne, hws, by omega, by omega⟩
    · rintro ⟨i, c2, r2, hdrop, hne, hws, ha, hb⟩
      cases i with
      | zero =>
        simp only [List.drop_zero] at hdrop
        injection hdrop with h1 h2
        injection h2 with h2 h3
        subst h2
        rcases hc with h | h
        · exact absurd h hne
        · rw [h] at hws; cases hws
      | succ j =>
        exact ⟨j, c2, r2, by simpa using hdrop, hne, hws, by omega, by omega⟩
  | case2 c rest pos hc ih =>
    rw [scanHeadingsAux.eq_1, if_neg hc]
    push_neg at hc
    obtain ⟨hne, hnws⟩ := hc
    have hws : isWS c = false := by
      cases hval : isWS c
      · rfl
      · exact absurd hval hnws
    constructor
    · intro hmem
      rcases List.mem_cons.mp hmem with heq | hmem2
      · injection heq with h1 h2
        exact ⟨0, c, rest, by simp, hne, hws, by omega, by omega⟩
      · obtain ⟨j, c2, r2, hdrop, hne2, hws2, ha, hb⟩ := ih.mp hmem2
        exact ⟨j + 2, c2, r2, by simpa using hdrop, hne2, hws2, by omega, by omega⟩
    · rintro ⟨i, c2, r2, hdrop, hne2, hws2, ha, hb⟩
      rcases i with _ | _ | j
      · simp only [List.drop_zero] at hdrop
        injection hdrop with h1 h2
        injection h2 with h2 h3
        refine List.mem_cons.mpr (Or.inl ?_)
        have h1 : a = pos := by omega
        have h2' : b = pos + 2 := by omega
        rw [h1, h2']
      · simp only [List.drop_succ_cons, List.drop_zero] at hdrop
        injection hdrop with h1 h2
        exact absurd h1 hne
      · refine List.mem_cons.mpr (Or.inr (ih.mpr ?_))
        refine ⟨j, c2, r2, by simpa using hdrop, hne2, hws2, by omega, by omega⟩
  | case3 head rest pos hfalse ih =>
    rw [scanHeadingsAux.eq_2 _ _ _ hfalse, ih]
    constructor
    · rintro ⟨i, c2, r2, hdrop, hne, hws, ha, hb⟩
      exact ⟨i + 1, c2, r2, by simpa using hdrop, hne, hws, by omega, by omega⟩
    · rintro ⟨i, c2, r2, hdrop, hne, hws, ha, hb⟩
      cases i with
      | zero =>
        simp only [List.drop_zero] at hdrop
        injection hdrop with h1 h2
        exact (hfalse c2 r2 h1 h2).elim
      | succ j =>
        exact ⟨j, c2, r2, by simpa using hdrop, hne, hws, by omega, by omega⟩
  | case4 pos =>
    rw [scanHeadingsAux.eq_3]
    simp only [List.mem_nil_iff, false_iff]
    rintro ⟨i, c2, r2, hdrop, _⟩
    simp at hdrop

theorem scanHeadings_mem (s : List Char) (a b : Nat) :
    (a, b) ∈ scanHeadings s ↔
      ∃ c2 r2, s.drop a = '#' :: c2 :: r2 ∧ c2 ≠ '#' ∧ isWS c2 = false ∧
        b = a + 2 := by
  rw [scanHeadings, scanHeadingsAux_mem]
  constructor
  · rintro ⟨i, c2, r2, hdrop, hne, hws, ha, hb⟩
    have hia : i = a := by omega
    subst hia
    exact ⟨c2, r2, hdrop, hne, hws, by omega⟩
  · rintro ⟨c2, r2, hdrop, hne, hws, hb⟩
    exact ⟨a, c2, r2, hdrop, hne, hws, by omega, by omega⟩

theorem scanLinksAux_bound :
    ∀ (l : List Char) (pos : Nat) (a b : Nat), (a, b) ∈ scanLinksAux l pos →
      pos ≤ a ∧ b = a + 4 ∧ b ≤ pos + l.length := by
  intro l pos
  induction l, pos using scanLinksAux.induct with
  | case1 rest pos ih =>
    intro a b h
    rw [scanLinksAux.eq_1] at h
    rcases List.mem_cons.mp h with heq | hmem
    · injection heq with h1 h2
      simp only [List.length_cons]
      omega
    · obtain ⟨h1, h2, h3⟩ := ih a b hmem
      simp only [List.length_cons] at h3 ⊢
      omega
  | case2 head rest pos hfalse ih =>
    intro a b h
    rw [scanLinksAux.eq_2 _ _ _ hfalse] at h
    obtain ⟨h1, h2, h3⟩ := ih a b h
    simp only [List.length_cons]
    omega
  | case3 pos =>
    intro a b h
    rw [scanLinksAux.eq_3] at h
    cases h

theorem tryList_eq_some (l : List Char) (k : Nat) :
    tryList l = some k ↔
      ∃ c d r2, l.drop (wsRunLen l) = c :: d :: r2 ∧
        (c = '-' ∨ c = '*' ∨ c = '+') ∧ isWS d = false ∧ k = wsRunLen l + 2 := by
  unfold tryList
  split
  · rename_i c d r2 hd
    rw [hd]
    by_cases hcond : (c = '-' ∨ c = '*' ∨ c = '+') ∧ ¬ isWS d
    · rw [if_pos hcond]
      constructor
      · intro h
        injection h with h1
        refine ⟨c, d, r2, rfl, hcond.1, ?_, by omega⟩
        cases hv : isWS d
        · rfl
        · exact absurd hv hcond.2
      · rintro ⟨c', d', r2', heq, _, _, hk⟩
        rw [hk]
    · rw [if_neg hcond]
      constructor
      · intro h; cases h
      · rintro ⟨c', d', r2', heq, hm, hw, hk⟩
        injection heq with h1 h2
        injection h2 with h2 h3
        subst h1; subst h2
        exact absurd ⟨hm, by simp [hw]⟩ hcond
  · rename_i x hno
    constructor
    · intro h; cases h
    · rintro ⟨c', d', r2', heq, _⟩
      exact (hno c' d' r2' heq).elim

theorem scanListAux_sound :
    ∀ (fuel : Nat) (s : List Char) (pos : Nat) (st : Bool) (a b : Nat),
      (a, b) ∈ scanListAux fuel (s.drop pos) pos st →
      pos ≤ a ∧ (a = pos → st = true) ∧
      (pos < a → (s.drop (a - 1)).head? = some '\n') ∧
      tryList (s.drop a) = some (b - a) ∧ a < b := by
  intro fuel
  induction fuel with
  | zero =>
    intro s pos st a b h
    rw [scanListAux] at h
    cases h
  | succ n ih =>
    intro s pos st a b h
    cases hdp : s.drop pos with
    | nil => rw [hdp, scanListAux] at h; cases h
    | cons c rest =>
      rw [hdp, scanListAux] at h
      have hrest : rest = s.drop (pos + 1) := by
        have ht := List.tail_drop s pos
        rw [hdp] at ht
        simpa using ht
      cases hcond : (if st then tryList (c :: rest) else none) with
      | some k =>
        rw [hcond] at h
        have hst : st = true := by
          cases st
          · simp at hcond
          · rfl
        have htl : tryList (s.drop pos) = some k := by
          rw [hst] at hcond
          rw [hdp]
          simpa using hcond
        have hk2 : k = wsRunLen (s.drop pos) + 2 := by
          obtain ⟨c', d', r2', _, _, _, hk⟩ := (tryList_eq_some _ _).mp htl
          exact hk
        rcases List.mem_cons.mp h with heq | hmem
        · injection heq with h1 h2
          refine ⟨by omega, fun _ => hst, by omega, ?_, by omega⟩
          rw [h1, h2, show pos + k - pos = k from by omega]
          exact htl
        · have hdd : (c :: rest).drop k = s.drop (pos + k) := by
            rw [← hdp, List.drop_drop, Nat.add_comm]
          rw [hdd] at hmem
          obtain ⟨hle, hst', hnl, htry, hab⟩ := ih s (pos + k) false a b hmem
          refine ⟨by omega, ?_, ?_, htry, hab⟩
          · intro ha; exfalso; omega
          · intro hlt
            by_cases hape : a = pos + k
            · exact absurd (hst' hape) (by simp)
            · exact hnl (by omega)
      | none =>
        rw [hcond] at h
        rw [hrest] at h
        obtain ⟨hle, hst', hnl, htry, hab⟩ := ih s (pos + 1) (decide (c = '\n')) a b h
        refine ⟨by omega, ?_, ?_, htry, hab⟩
        · intro ha; exfalso; omega
        · intro hlt
          by_cases hape : a = pos + 1
          · have hc : c = '\n' := of_decide_eq_true (hst' hape)
            have ha1 : a - 1 = pos := by omega
            rw [ha1, hdp, hc]
            rfl
          · exact hnl (by omega)

theorem scanList_sound (s : List Char) (a b : Nat) (h : (a, b) ∈ scanList s) :
    (a = 0 ∨ (s.drop (a - 1)).head? = some '\n') ∧
      (∃ c d r2, (s.drop a).drop (wsRunLen (s.drop a)) = c :: d :: r2 ∧
        (c = '-' ∨ c = '*' ∨ c = '+') ∧ isWS d = false) ∧
      b = a + wsRunLen (s.drop a) + 2 := by
  rw [scanList] at h
  have h' : (a, b) ∈ scanListAux s.length (s.drop 0) 0 true := by simpa using h
  obtain ⟨hle, hst, hnl, htry, hab⟩ := scanListAux_sound s.length s 0 true a b h'
  obtain ⟨c, d, r2, hdrop, hm, hw, hk⟩ := (tryList_eq_some _ _).mp htry
  refine ⟨?_, ⟨c, d, r2, hdrop, hm, hw⟩, by omega⟩
  rcases Nat.eq_zero_or_pos a with rfl | hpos
  · exact Or.inl rfl
  · exact Or.inr (hnl hpos)

theorem scanList_bound (s : List Char) (a b : Nat) (h : (a, b) ∈ scanList s) :
    a < b ∧ b ≤ s.length := by
  obtain ⟨_, ⟨c, d, r2, hdrop, _, _⟩, hb⟩ := scanList_sound s a b h
  have h1 : ((s.drop a).drop (wsRunLen (s.drop a))).length =
      s.length - a - wsRunLen (s.drop a) := by
    simp [List.length_drop]
    omega
  rw [hdrop] at h1
  simp only [List.length_cons] at h1
  omega

theorem scanHeadings_bound (s : List Char) (a b : Nat) (h : (a, b) ∈ scanHeadings s) :
    a < b ∧ b ≤ s.length := by
  obtain ⟨c2, r2, hdrop, _, _, hb⟩ := (scanHeadings_mem s a b).mp h
  have h1 : (s.drop a).length = s.length - a := by simp
  rw [hdrop] at h1
  simp only [List.length_cons] at h1
  omega

theorem scanLinks_bound (s : List Char) (a b : Nat) (h : (a, b) ∈ scanLinks s) :
    a < b ∧ b ≤ s.length := by
  obtain ⟨h1, h2, h3⟩ := scanLinksAux_bound s 0 a b h
  omega

/-! Lemmas about `lint_markdown` and `format_markdown`. -/

theorem bodyOffsetOf_bounds {s : List Char} (h : has_frontmatter s = true) :
    0 < bodyOffsetOf s ∧ bodyOffsetOf s ≤ s.length := by
  rw [has_frontmatter] at h
  cases hm : matchEnvelope s with
  | none => rw [hm] at h; cases h
  | some v =>
    obtain ⟨o, p, e⟩ := v
    have hb := matchEnvelope_bounds hm
    simp only [bodyOffsetOf, hm]
    omega

theorem bodyScan_mem {b : List Char} {d : Diag} (h : d ∈ bodyScan b) :
    d.kind ≠ DiagKind.invalidFrontmatter ∧ d.rstart < d.rstop ∧ d.rstop ≤ b.length := by
  rw [bodyScan] at h
  split at h
  · rcases List.mem_append.mp h with h1 | h3
    · rcases List.mem_append.mp h1 with h1a | h1b
      · obtain ⟨r, hr, hd⟩ := List.mem_map.mp h1a
        obtain ⟨ha, hb⟩ := scanList_bound b r.1 r.2 hr
        subst hd
        exact ⟨by simp, ha, hb⟩
      · obtain ⟨r, hr, hd⟩ := List.mem_map.mp h1b
        obtain ⟨ha, hb⟩ := scanHeadings_bound b r.1 r.2 hr
        subst hd
        exact ⟨by simp, ha, hb⟩
    · obtain ⟨r, hr, hd⟩ := List.mem_map.mp h3
      obtain ⟨ha, hb⟩ := scanLinks_bound b r.1 r.2 hr
      subst hd
      exact ⟨by simp, ha, hb⟩
  · cases h

theorem filter_scan_map_eq_nil {k : DiagKind} (hk : k ≠ DiagKind.invalidFrontmatter)
    (l : List (Nat × Nat)) :
    (l.map (fun r => (⟨k, r.1, r.2⟩ : Diag))).filter
      (fun d => decide (d.kind = DiagKind.invalidFrontmatter)) = [] := by
  induction l with
  | nil => rfl
  | cons x xs ih => simp [List.filter_cons, hk, ih]

theorem bodyScan_filter_inv (b : List Char) :
    (bodyScan b).filter (fun d => decide (d.kind = DiagKind.invalidFrontmatter)) = [] := by
  rw [bodyScan]
  split
  · rw [List.filter_append, List.filter_append,
      filter_scan_map_eq_nil (by decide), filter_scan_map_eq_nil (by decide),
      filter_scan_map_eq_nil (by decide)]
    rfl
  · rfl

theorem lint_filter_inv (parse : List Char → Option YamlValue) (s : List Char) :
    (lint_markdown parse s).filter (fun d => decide (d.kind = DiagKind.invalidFrontmatter)) =
      if has_frontmatter s = true ∧ (extract_frontmatter parse s).2 = false
      then [⟨.invalidFrontmatter, 0, bodyOffsetOf s⟩] else [] := by
  rw [lint_markdown, List.filter_append, bodyScan_filter_inv, List.append_nil, fmDiags]
  by_cases hf : has_frontmatter s
  · rw [if_pos hf]
    by_cases hv : (extract_frontmatter parse s).2
    · rw [if_pos hv, if_neg (by simp [hv])]
      rfl
    · rw [if_neg hv, if_pos ⟨hf, by simpa using hv⟩]
      simp [List.filter_cons]
  · rw [if_neg hf, if_neg (by simp [hf])]
    rfl

theorem extract_valid_of_parse_some {parse : List Char → Option YamlValue}
    {s : List Char} {v : YamlValue}
    (hf : has_frontmatter s = true) (hp : parse (fmContentOf s) = some v) :
    (extract_frontmatter parse s).2 = true := by
  rw [has_frontmatter] at hf
  cases hm : matchEnvelope s with
  | none => rw [hm] at hf; cases hf
  | some t =>
    obtain ⟨o, p, e⟩ := t
    have hcontent : fmContentOf s = sliceCh s o p := by rw [fmContentOf, hm]
    rw [hcontent] at hp
    simp only [extract_frontmatter, hm, hp]

theorem lint_no_inv_of_valid {parse : List Char → Option YamlValue} {s : List Char}
    (hv : (extract_frontmatter parse s).2 = true) :
    ∀ d ∈ lint_markdown parse s, d.kind ≠ DiagKind.invalidFrontmatter := by
  intro d hd
  rw [lint_markdown] at hd
  rcases List.mem_append.mp hd with hfm | hbody
  · rw [fmDiags] at hfm
    by_cases hf : has_frontmatter s
    · rw [if_pos hf, if_pos hv] at hfm
      cases hfm
    · rw [if_neg hf] at hfm
      cases hfm
  · exact (bodyScan_mem hbody).1

theorem format_markdown_some {canon : List Char → Option (List Char)}
    {s fb : List Char} (hf : has_frontmatter s = true)
    (hc : canon (bodyOf s) = some fb) :
    format_markdown canon s = ⟨rawFrontmatterOf s ++ fb, true⟩ := by
  rw [format_markdown, format_attempt, if_pos hf]
  have hf' := hf
  rw [has_frontmatter] at hf'
  cases hm : matchEnvelope s with
  | none => rw [hm] at hf'; cases hf'
  | some t =>
    obtain ⟨o, p, e⟩ := t
    have hsplit : re_split_env s = [[], s.drop e] := by rw [re_split_env, hm]
    have hbody : bodyOf s = s.drop e := by simp [bodyOf, bodyOffsetOf, hm]
    rw [hsplit]
    rw [hbody] at hc
    simp [hc]

theorem format_markdown_some_nofm {canon : List Char → Option (List Char)}
    {s fb : List Char} (hf : has_frontmatter s = false)
    (hc : canon s = some fb) :
    format_markdown canon s = ⟨fb, true⟩ := by
  rw [format_markdown, format_attempt, if_neg (by simp [hf]), hc]

theorem format_markdown_none {canon : List Char → Option (List Char)}
    {s : List Char} (hc : canon (bodyOf s) = none) :
    format_markdown canon s = ⟨s, false⟩ := by
  rw [format_markdown, format_attempt]
  by_cases hf : has_frontmatter s
  · rw [if_pos hf]
    have hf' := hf
    rw [has_frontmatter] at hf'
    cases hm : matchEnvelope s with
    | none => rw [hm] at hf'; cases hf'
    | some t =>
      obtain ⟨o, p, e⟩ := t
      have hsplit : re_split_env s = [[], s.drop e] := by rw [re_split_env, hm]
      have hbody : bodyOf s = s.drop e := by simp [bodyOf, bodyOffsetOf, hm]
      rw [hsplit]
      rw [hbody] at hc
      simp [hc]
  · rw [if_neg hf]
    have hbody : bodyOf s = s := by
      rw [has_frontmatter] at hf
      cases hm : matchEnvelope s with
      | some v => rw [hm] at hf; simp at hf
      | none => simp [bodyOf, bodyOffsetOf, hm]
    rw [hbody] at hc
    rw [hc]

/-! Claim theorems. -/

/-- C1 (code bug evidence): the source computes body-check ranges
relative to the frontmatter-stripped body but applies the highlight
tags to the full document without shifting them by `bodyOffset`.  On
`"---\ntitle: Hi\n---\n#Bad"` the heading diagnostic is tagged over
document offsets `[0, 2)` (inside the opening `---` delimiter) although
the body offset is 18, so the shifted range `[18, 20)` covering `#Bad`
is not produced. -/
theorem c1_heading_range_not_shifted :
    lintTagged yamlScalar scenE = [⟨DiagKind.missingSpaceHeading, 0, 2⟩] ∧
      bodyOffsetOf scenE = 18 ∧
      lintTagged yamlScalar scenE ≠ [⟨DiagKind.missingSpaceHeading, 18, 20⟩] :=
  ⟨by decide, by decide, by decide⟩

/-- C2 counterexample: `"---\n---\n"` — zero content lines, no newline
between the opening delimiter's newline and the closing `---` — is not
detected as frontmatter, contrary to the claim. -/
theorem c2_zero_lines_not_detected :
    has_frontmatter ("---\n---\n".toList) = false := by decide

/-- C2 (amended): frontmatter is detected exactly when the text starts
with `---`, optional whitespace and a newline, at least one (possibly
empty) newline-terminated content region, then `---`, optional
whitespace and a newline; and when no envelope is detected the body is
the whole text. -/
theorem c2_frontmatter_detection (s : List Char) :
    (has_frontmatter s = true ↔ EnvelopeShape s) ∧
      (has_frontmatter s = false → bodyOf s = s) :=
  ⟨has_frontmatter_iff_shape s, fun h => bodyOf_of_no_fm h⟩

theorem c2_frontmatter_detection_witness :
    bodyOf ("hello".toList) = "hello".toList :=
  (c2_frontmatter_detection ("hello".toList)).2 (by decide)

/-- C3 counterexample: on `"  -item"` the produced list-marker range is
`[0, 4)` — `match.start(1)` points at the start of the leading
whitespace captured by `(\s*[-*+])` — not the two-character range
`[2, 4)` the claim describes. -/
theorem c3_leading_ws_included :
    lint_markdown yamlNone ("  -item".toList) =
        [⟨DiagKind.missingSpaceList, 0, 4⟩] ∧
      (⟨DiagKind.missingSpaceList, 0, 4⟩ : Diag) ≠
        ⟨DiagKind.missingSpaceList, 2, 4⟩ :=
  ⟨by decide, by decide⟩

/-- C3 (amended): every list-marker diagnostic starts at a line start
and covers the whole leading whitespace run, the marker and the
offending character (`range = [lineStart, lineStart + wsRun + 2)`); in
particular `"-item"` (no leading whitespace) yields exactly one
`MissingSpaceAfterListMarker` diagnostic with range `[0, 2)`. -/
theorem c3_list_marker_range :
    (∀ (s : List Char) (a b : Nat), (a, b) ∈ scanList s →
      (a = 0 ∨ (s.drop (a - 1)).head? = some '\n') ∧
      (∃ c d r2, (s.drop a).drop (wsRunLen (s.drop a)) = c :: d :: r2 ∧
        (c = '-' ∨ c = '*' ∨ c = '+') ∧ isWS d = false) ∧
      b = a + wsRunLen (s.drop a) + 2) ∧
    lint_markdown yamlNone ("-item".toList) = [⟨DiagKind.missingSpaceList, 0, 2⟩] :=
  ⟨scanList_sound, by decide⟩

theorem c3_list_marker_range_witness :
    (0 = 0 ∨ (("-item".toList).drop (0 - 1)).head? = some '\n') ∧
      (∃ c d r2,
        (("-item".toList).drop 0).drop (wsRunLen (("-item".toList).drop 0)) =
          c :: d :: r2 ∧
        (c = '-' ∨ c = '*' ∨ c = '+') ∧ isWS d = false) ∧
      2 = 0 + wsRunLen (("-item".toList).drop 0) + 2 :=
  c3_list_marker_range.1 ("-item".toList) 0 2 (by decide)

/-- C4: the heading check flags exactly the positions where a `#` is
immediately followed by a character that is neither whitespace nor `#`
(necessarily the last marker of a `#`-run, so `##` followed by `#` is
never flagged), each with the two-character range `[q, q+2)`; in
particular `"#Title"` yields exactly one `MissingSpaceAfterHeadingMarker`
diagnostic at `[0, 2)`. -/
theorem c4_heading_check :
    (∀ (s : List Char) (a b : Nat),
      ((a, b) ∈ scanHeadings s ↔
        ∃ c2 r2, s.drop a = '#' :: c2 :: r2 ∧ c2 ≠ '#' ∧ isWS c2 = false ∧
          b = a + 2)) ∧
    lint_markdown yamlNone ("#Title".toList) =
      [⟨DiagKind.missingSpaceHeading, 0, 2⟩] :=
  ⟨scanHeadings_mem, by decide⟩

theorem c4_heading_check_witness :
    (0, 2) ∈ scanHeadings ("#Title".toList) ↔
      ∃ c2 r2, ("#Title".toList).drop 0 = '#' :: c2 :: r2 ∧ c2 ≠ '#' ∧
        isWS c2 = false ∧ 2 = 0 + 2 :=
  c4_heading_check.1 ("#Title".toList) 0 2

/-- C5: the `InvalidFrontmatter` diagnostic appears in the lint output
exactly once, with range `[0, bodyOffset)`, precisely when frontmatter
is present and its metadata fails to parse — independent of the body;
on `"---\nfoo: [unterminated\n---\n# Heading"` (any parser failing on
the metadata content) the whole lint output is that single diagnostic
with range `[0, 27)` and no heading diagnostic. -/
theorem c5_invalid_frontmatter :
    (∀ (parse : List Char → Option YamlValue) (s : List Char),
      (lint_markdown parse s).filter
          (fun d => decide (d.kind = DiagKind.invalidFrontmatter)) =
        if has_frontmatter s = true ∧ (extract_frontmatter parse s).2 = false
        then [⟨DiagKind.invalidFrontmatter, 0, bodyOffsetOf s⟩] else []) ∧
    (∀ parse : List Char → Option YamlValue, parse scenDContent = none →
      lint_markdown parse scenD = [⟨DiagKind.invalidFrontmatter, 0, 27⟩]) := by
  refine ⟨lint_filter_inv, ?_⟩
  intro parse hp
  have hm : matchEnvelope scenD = some (4, 22, 27) := by decide
  have hslice : sliceCh scenD 4 22 = scenDContent := by decide
  have hval : (extract_frontmatter parse scenD).2 = false := by
    simp only [extract_frontmatter, hm, hslice, hp]
  have hfm : has_frontmatter scenD = true := by decide
  have hoff : bodyOffsetOf scenD = 27 := by decide
  have hbody : bodyScan (bodyOf scenD) = [] := by decide
  rw [lint_markdown, hbody, List.append_nil, fmDiags, if_pos hfm,
    if_neg (by simp [hval]), hoff]

theorem c5_invalid_frontmatter_witness :
    lint_markdown yamlNone scenD = [⟨DiagKind.invalidFrontmatter, 0, 27⟩] :=
  c5_invalid_frontmatter.2 yamlNone rfl

/-- C6: when frontmatter is present and the canonicalizer succeeds on
the body, `format_markdown` returns exactly the byte-for-byte unchanged
raw frontmatter block concatenated with the canonicalized body, so the
result starts with `rawFrontmatter`. -/
theorem c6_frontmatter_preserved (canon : List Char → Option (List Char))
    (s fb : List Char) (hf : has_frontmatter s = true)
    (hc : canon (bodyOf s) = some fb) :
    format_markdown canon s = ⟨rawFrontmatterOf s ++ fb, true⟩ :=
  format_markdown_some hf hc

theorem c6_frontmatter_preserved_witness :
    format_markdown some scenE = ⟨rawFrontmatterOf scenE ++ bodyOf scenE, true⟩ :=
  c6_frontmatter_preserved some scenE (bodyOf scenE) (by decide) rfl

/-- C7: when the body canonicalizer fails, `format_markdown` reports
the failure and leaves the document text completely unchanged. -/
theorem c7_format_all_or_nothing (canon : List Char → Option (List Char))
    (s : List Char) (hc : canon (bodyOf s) = none) :
    format_markdown canon s = ⟨s, false⟩ :=
  format_markdown_none hc

theorem c7_format_all_or_nothing_witness :
    format_markdown (fun _ => none) scenE = ⟨scenE, false⟩ :=
  c7_format_all_or_nothing (fun _ => none) scenE rfl

/-- C8: every diagnostic the linter produces has a well-formed range:
`start < end` and `end ≤ len(text)`. -/
theorem c8_ranges_wellformed (parse : List Char → Option YamlValue)
    (s : List Char) (d : Diag) (h : d ∈ lint_markdown parse s) :
    d.rstart < d.rstop ∧ d.rstop ≤ s.length := by
  rw [lint_markdown] at h
  rcases List.mem_append.mp h with hfm | hbody
  · rw [fmDiags] at hfm
    by_cases hf : has_frontmatter s
    · by_cases hv : (extract_frontmatter parse s).2
      · rw [if_pos hf, if_pos hv] at hfm; cases hfm
      · rw [if_pos hf, if_neg hv] at hfm
        rcases List.mem_cons.mp hfm with rfl | habs
        · have hb := bodyOffsetOf_bounds hf
          exact ⟨hb.1, hb.2⟩
        · cases habs
    · rw [if_neg hf] at hfm; cases hfm
  · obtain ⟨_, h1, h2⟩ := bodyScan_mem hbody
    have hlen : (bodyOf s).length ≤ s.length := by
      rw [bodyOf, List.length_drop]; omega
    exact ⟨h1, le_trans h2 hlen⟩

theorem c8_ranges_wellformed_witness :
    (⟨DiagKind.missingSpaceHeading, 0, 2⟩ : Diag).rstart <
        (⟨DiagKind.missingSpaceHeading, 0, 2⟩ : Diag).rstop ∧
      (⟨DiagKind.missingSpaceHeading, 0, 2⟩ : Diag).rstop ≤ ("#x".toList).length :=
  c8_ranges_wellformed yamlNone ("#x".toList)
    ⟨DiagKind.missingSpaceHeading, 0, 2⟩ (by decide)

/-- C9 counterexample: with the idempotent canonicalizer `canonConst`
and the frontmatter-free input `"hello"`, formatting twice differs from
formatting once — the first output begins with a frontmatter envelope,
which the second pass preserves while appending another canonicalized
body — so idempotence does not follow from idempotence of the
canonicalizer alone. -/
theorem c9_not_idempotent :
    (∀ y z, canonConst y = some z → canonConst z = some z) ∧
      has_frontmatter ("hello".toList) = false ∧
      (format_markdown canonConst
          (format_markdown canonConst ("hello".toList)).text).text ≠
        (format_markdown canonConst ("hello".toList)).text := by
  refine ⟨?_, by decide, by decide⟩
  intro y z h
  injection h with h'
  rw [← h']
  rfl

/-- C9 (amended): formatting is idempotent on frontmatter-free input
when the canonicalizer is idempotent and its output never begins with a
frontmatter envelope. -/
theorem c9_format_idempotent (canon : List Char → Option (List Char))
    (x : List Char)
    (hidem : ∀ y z, canon y = some z → canon z = some z)
    (hnofm : ∀ y z, canon y = some z → has_frontmatter z = false)
    (hx : has_frontmatter x = false) :
    (format_markdown canon (format_markdown canon x).text).text =
      (format_markdown canon x).text := by
  have hbx : bodyOf x = x := bodyOf_of_no_fm hx
  cases hcx : canon x with
  | none =>
    have h1 : format_markdown canon x = ⟨x, false⟩ :=
      format_markdown_none (by rw [hbx]; exact hcx)
    rw [h1]
    show (format_markdown canon x).text = x
    rw [h1]
  | some z =>
    have h1 : format_markdown canon x = ⟨z, true⟩ :=
      format_markdown_some_nofm hx hcx
    rw [h1]
    show (format_markdown canon z).text = z
    have hz : has_frontmatter z = false := hnofm x z hcx
    have h2 : format_markdown canon z = ⟨z, true⟩ :=
      format_markdown_some_nofm hz (hidem x z hcx)
    rw [h2]

theorem c9_format_idempotent_witness :
    (format_markdown canonA (format_markdown canonA ['b']).text).text =
      (format_markdown canonA ['b']).text :=
  c9_format_idempotent canonA ['b']
    (fun _ z h => by injection h with h'; rw [← h']; rfl)
    (fun _ z h => by injection h with h'; rw [← h']; decide)
    (by decide)

/-- C10: whenever the metadata content parses to any structured value —
scalar, sequence, mapping or null alike — `extract_frontmatter` reports
the metadata valid and the lint output contains no `InvalidFrontmatter`
diagnostic. -/
theorem c10_any_value_is_valid (parse : List Char → Option YamlValue)
    (s : List Char) (v : YamlValue) (hf : has_frontmatter s = true)
    (hp : parse (fmContentOf s) = some v) :
    (extract_frontmatter parse s).2 = true ∧
      ∀ d ∈ lint_markdown parse s, d.kind ≠ DiagKind.invalidFrontmatter := by
  have hval := extract_valid_of_parse_some hf hp
  exact ⟨hval, lint_no_inv_of_valid hval⟩

theorem c10_any_value_is_valid_witness :
    (extract_frontmatter yamlScalar scenScalar).2 = true ∧
      ∀ d ∈ lint_markdown yamlScalar scenScalar,
        d.kind ≠ DiagKind.invalidFrontmatter :=
  c10_any_value_is_valid yamlScalar scenScalar
    (.str (fmContentOf scenScalar)) (by decide) rfl
